import Mathlib

/-!
Verification of the markdown live-styling logic of the memos desktop client.

The embedding follows the Python source:
* `src/ui/memo_edit_view.py`, `MemoEditView._apply_markdown_styling` — the
  per-line block classification and inline regex passes (`annotate` below);
* `src/utils/markdown.py`, `MarkdownUtils.parse_line_style` and
  `MarkdownUtils.should_apply_inline_patterns`;
* `src/ui/memo_edit_view.py`, `MemoEditView._on_key_pressed` — list
  continuation on Enter (`onEnter` below).

Python regexes are compiled into explicit scanning functions with the same
leftmost, lazy (non-greedy) match semantics, including the lookarounds of the
single-asterisk italic pattern.  Offsets are code-point offsets (`List Char`
positions), matching Python `str` indexing.
-/

namespace Memories

/-- Python's whitespace class for `\s` in `str` patterns (the `str.isspace`
set): ASCII whitespace, the C1 separators, and the Unicode space/line/paragraph
separators. -/
def isPySpace (c : Char) : Bool :=
  c == ' ' || c == '\t' || c == '\n' || c == '\r' || c == '\x0b' || c == '\x0c' ||
  c == '\x1c' || c == '\x1d' || c == '\x1e' || c == '\x1f' || c == '\x85' || c == '\xa0' ||
  c == '\u1680' || (('\u2000' ≤ c) && (c ≤ '\u200A')) || c == '\u2028' || c == '\u2029' ||
  c == '\u202F' || c == '\u205F' || c == '\u3000'

/-- The backquote character, delimiter of the inline-code pattern. -/
def backtick : Char := Char.ofNat 96

/-! ## Inline regex matchers

Each `match…` function decides whether the corresponding Python regex matches
at the start of the given character list (with lazy `.+?` semantics) and, if
so, returns the length of the match.  `.` never matches a newline. -/

/-- Scan for the closing delimiter of a lazy single-delimiter pattern
(`_(.+?)_` or the backquote form): number of content characters consumed
before the closing delimiter, or `none` when no close exists before a newline
or the end. -/
def findCloseSingle (d : Char) : List Char → Option Nat
  | [] => none
  | c :: rest =>
    if c == d then some 0
    else if c == '\n' then none
    else (findCloseSingle d rest).map (· + 1)

/-- Match a single-delimiter lazy pattern `d(.+?)d` at the start of the list;
returns the full match length. -/
def matchSingle (d : Char) : List Char → Option Nat
  | c0 :: c :: rest =>
    if c0 == d && c != '\n' then (findCloseSingle d rest).map (· + 3)
    else none
  | _ => none

/-- Scan for a closing double delimiter `dd` (for `\*\*(.+?)\*\*` and
`~~(.+?)~~`): number of extra content characters consumed before `dd`. -/
def findCloseDouble (d : Char) : List Char → Option Nat
  | c1 :: c2 :: rest =>
    if c1 == d && c2 == d then some 0
    else if c1 == '\n' then none
    else (findCloseDouble d (c2 :: rest)).map (· + 1)
  | _ => none

/-- Match a double-delimiter lazy pattern `dd(.+?)dd` at the start of the
list; returns the full match length. -/
def matchDouble (d : Char) : List Char → Option Nat
  | c0 :: c1 :: c :: rest =>
    if c0 == d && c1 == d && c != '\n' then (findCloseDouble d rest).map (· + 5)
    else none
  | _ => none

/-- Scan for the closing `\*` of `(?<!\*)\*(?!\*)(.+?)(?<!\*)\*(?!\*)`: the
closing star must not be preceded (last consumed content character) or
followed by another star. -/
def findCloseItalicStar : Char → List Char → Option Nat
  | _, [] => none
  | last, c :: rest =>
    if c == '*' && last != '*' && rest.head? != some '*' then some 0
    else if c == '\n' then none
    else (findCloseItalicStar c rest).map (· + 1)

/-- Match the single-asterisk italic pattern at the start of the list.
`prev` is the character just before the current position in the original
line (`none` at the line start), used by the opening negative lookbehind. -/
def matchItalicStar (prev : Option Char) : List Char → Option Nat
  | '*' :: c :: rest =>
    if prev == some '*' then none
    else if c == '*' || c == '\n' then none
    else (findCloseItalicStar c rest).map (· + 3)
  | _ => none

/-- Scan for the closing parenthesis of the lazy link target `(.+?)\)`. -/
def findCloseParen : List Char → Option Nat
  | [] => none
  | c :: rest =>
    if c == ')' then some 0
    else if c == '\n' then none
    else (findCloseParen rest).map (· + 1)

/-- Match the link-target part `(.+?)\)` (at least one content character,
then the closing parenthesis); returns consumed length including the close. -/
def matchGroup2 : List Char → Option Nat
  | [] => none
  | c :: rest =>
    if c == '\n' then none
    else (findCloseParen rest).map (· + 2)

/-- After `\[` and the first label character: lazily extend the label until
`\]\(` followed by a successful target match; on target failure the label is
extended past the `](` (regex backtracking). Returns consumed length through
the final `)`. -/
def linkAfterFirst : List Char → Option Nat
  | ']' :: '(' :: r =>
    (match matchGroup2 r with
     | some g => some (2 + g)
     | none => (linkAfterFirst ('(' :: r)).map (· + 1))
  | c :: rest =>
    if c == '\n' then none
    else (linkAfterFirst rest).map (· + 1)
  | [] => none

/-- Match the link pattern `\[(.+?)\]\((.+?)\)` at the start of the list. -/
def matchLinkAt : List Char → Option Nat
  | '[' :: c :: rest =>
    if c == '\n' then none
    else (linkAfterFirst rest).map (· + 2)
  | _ => none

/-! ## `re.finditer` -/

/-- One step of `re.finditer`: try the matcher at the current position; on
success emit the span and resume at the match end (our matchers never match
the empty string), otherwise advance one character.  `prev` is the character
preceding the current position in the original line, for lookbehinds.  `fuel`
bounds the recursion; `finditer` supplies the list length, which always
suffices since every step consumes at least one character. -/
def finditerAux (m : Option Char → List Char → Option Nat) :
    Nat → Option Char → List Char → Nat → List (Nat × Nat)
  | 0, _, _, _ => []
  | _ + 1, _, [], _ => []
  | fuel + 1, prev, c :: rest, i =>
    match m prev (c :: rest) with
    | some n =>
      if n = 0 then finditerAux m fuel (some c) rest (i + 1)
      else (i, i + n) ::
        finditerAux m fuel (((c :: rest).drop (n - 1)).head?) ((c :: rest).drop n) (i + n)
    | none => finditerAux m fuel (some c) rest (i + 1)

/-- All non-overlapping leftmost matches of the pattern in the line, as
half-open spans of line-local offsets, in order. -/
def finditer (m : Option Char → List Char → Option Nat) (l : List Char) : List (Nat × Nat) :=
  finditerAux m l.length none l 0

/-! ## Line-marker regexes of the block pass -/

/-- Anchored match of `^([\s]*\d+\.\s+)` (ordered-list marker); returns the
length of group 1. -/
def matchOrderedMarker (l : List Char) : Option Nat :=
  let ws := l.takeWhile isPySpace
  let r1 := l.drop ws.length
  let num := r1.takeWhile (fun c => c.isDigit)
  if num.isEmpty then none
  else
    match r1.drop num.length with
    | '.' :: r2 =>
      let ws2 := r2.takeWhile isPySpace
      if ws2.isEmpty then none else some (ws.length + num.length + 1 + ws2.length)
    | _ => none

/-- Anchored match of `^([\s]*[-*+]\s+)` (unordered-list marker); returns the
length of group 1. -/
def matchUnorderedMarker (l : List Char) : Option Nat :=
  let ws := l.takeWhile isPySpace
  match l.drop ws.length with
  | m :: r2 =>
    if m == '-' || m == '*' || m == '+' then
      let ws2 := r2.takeWhile isPySpace
      if ws2.isEmpty then none else some (ws.length + 1 + ws2.length)
    else none
  | [] => none

/-! ## The annotator (`MemoEditView._apply_markdown_styling`) -/

/-- The style tags applied by the editor, named as in the source. -/
inductive StyleTag
  | h1 | h2 | h3 | quote | code_block
  | list_number | list_bullet | list_item
  | bold | italic | code | strikethrough | link
  deriving DecidableEq, Repr

/-- One styled span: half-open code-point offsets into the whole document
plus the applied tag (one `self._tag(start, end, name)` call). -/
structure Annot where
  start : Nat
  stop : Nat
  tag : StyleTag
  deriving DecidableEq, Repr

/-- Tags applied by the block-level `if/elif` chain. -/
def isBlockTag : StyleTag → Bool
  | .h1 | .h2 | .h3 | .quote | .code_block | .list_number | .list_bullet | .list_item => true
  | _ => false

/-- Tags applied by the inline pattern loops. -/
def isInlineTag : StyleTag → Bool
  | .bold | .italic | .code | .strikethrough | .link => true
  | _ => false

/-- `line.startswith(("# ", "## ", "### ", "> ", "    ", "\t"))`: the guard of
the inline pass (also the body of `should_apply_inline_patterns`, negated). -/
def isBlockLine (l : List Char) : Bool :=
  ['#', ' '].isPrefixOf l || ['#', '#', ' '].isPrefixOf l || ['#', '#', '#', ' '].isPrefixOf l ||
  ['>', ' '].isPrefixOf l || [' ', ' ', ' ', ' '].isPrefixOf l || ['\t'].isPrefixOf l

/-- The block-level `if/elif` chain of `_apply_markdown_styling` for one line
at document offset `off`. -/
def blockAnnots (off : Nat) (l : List Char) : List Annot :=
  if ['#', ' '].isPrefixOf l then [⟨off, off + l.length, .h1⟩]
  else if ['#', '#', ' '].isPrefixOf l then [⟨off, off + l.length, .h2⟩]
  else if ['#', '#', '#', ' '].isPrefixOf l then [⟨off, off + l.length, .h3⟩]
  else if ['>', ' '].isPrefixOf l then [⟨off, off + l.length, .quote⟩]
  else if [' ', ' ', ' ', ' '].isPrefixOf l || ['\t'].isPrefixOf l then
    [⟨off, off + l.length, .code_block⟩]
  else
    match matchOrderedMarker l with
    | some k => [⟨off, off + k, .list_number⟩, ⟨off, off + l.length, .list_item⟩]
    | none =>
      match matchUnorderedMarker l with
      | some k => [⟨off, off + k, .list_bullet⟩, ⟨off, off + l.length, .list_item⟩]
      | none => []

/-- The inline pattern loops of `_apply_markdown_styling` for one line at
document offset `off`: skipped entirely when the line starts with a block
prefix, otherwise bold, star-italic, underscore-italic, code, strikethrough
and link spans in that order. -/
def inlineAnnots (off : Nat) (l : List Char) : List Annot :=
  if isBlockLine l then []
  else
    (finditer (fun _ s => matchDouble '*' s) l).map (fun p => ⟨off + p.1, off + p.2, .bold⟩)
    ++ (finditer matchItalicStar l).map (fun p => ⟨off + p.1, off + p.2, .italic⟩)
    ++ (finditer (fun _ s => matchSingle '_' s) l).map (fun p => ⟨off + p.1, off + p.2, .italic⟩)
    ++ (finditer (fun _ s => matchSingle backtick s) l).map (fun p => ⟨off + p.1, off + p.2, .code⟩)
    ++ (finditer (fun _ s => matchDouble '~' s) l).map
        (fun p => ⟨off + p.1, off + p.2, .strikethrough⟩)
    ++ (finditer (fun _ s => matchLinkAt s) l).map (fun p => ⟨off + p.1, off + p.2, .link⟩)

/-- All tag applications of one loop iteration of `_apply_markdown_styling`:
the block chain, then the inline loops. -/
def lineAnnots (off : Nat) (l : List Char) : List Annot :=
  blockAnnots off l ++ inlineAnnots off l

/-- `text.split("\n")` on code points. -/
def splitOnNl : List Char → List (List Char)
  | [] => [[]]
  | c :: rest =>
    if c = '\n' then [] :: splitOnNl rest
    else
      match splitOnNl rest with
      | [] => [[c]]
      | l :: ls => (c :: l) :: ls

/-- The per-line loop: each line is annotated at its starting offset, which
advances by line length plus one for the consumed newline. -/
def annotateLines : Nat → List (List Char) → List Annot
  | _, [] => []
  | off, l :: ls => lineAnnots off l ++ annotateLines (off + l.length + 1) ls

/-- `MemoEditView._apply_markdown_styling`, as a pure function from the
buffer text to the list of applied tag spans. -/
def annotate (d : String) : List Annot :=
  annotateLines 0 (splitOnNl d.data)

/-! ## `MarkdownUtils` (src/utils/markdown.py) -/

/-- `MarkdownUtils.parse_line_style`: the style name and (for lists) the
marker length, decided by the same `if/elif` chain.  The `data` dict is
reduced to the `marker_len` entry, `0` when absent. -/
def parse_line_style (l : List Char) : String × Nat :=
  if ['#', ' '].isPrefixOf l then ("h1", 0)
  else if ['#', '#', ' '].isPrefixOf l then ("h2", 0)
  else if ['#', '#', '#', ' '].isPrefixOf l then ("h3", 0)
  else if ['>', ' '].isPrefixOf l then ("quote", 0)
  else if [' ', ' ', ' ', ' '].isPrefixOf l || ['\t'].isPrefixOf l then ("code_block", 0)
  else
    match matchOrderedMarker l with
    | some k => ("list_number", k)
    | none =>
      match matchUnorderedMarker l with
      | some k => ("list_bullet", k)
      | none => ("normal", 0)

/-- `MarkdownUtils.should_apply_inline_patterns`. -/
def should_apply_inline_patterns (l : List Char) : Bool :=
  !(['#', ' '].isPrefixOf l || ['#', '#', ' '].isPrefixOf l ||
    ['#', '#', '#', ' '].isPrefixOf l || ['>', ' '].isPrefixOf l ||
    [' ', ' ', ' ', ' '].isPrefixOf l || ['\t'].isPrefixOf l)

/-! ## List continuation on Enter (`MemoEditView._on_key_pressed`) -/

/-- Python `int` on a decimal digit string. -/
def digitsToNat (ds : List Char) : Nat :=
  ds.foldl (fun a c => 10 * a + (c.toNat - 48)) 0

/-- Anchored match of `^(\s*)(\d+)\.\s+(.*)$` with Python semantics
(`.` excludes newlines, `$` also matches just before a trailing final
newline); returns the three groups. -/
def matchOrderedEnter (t : List Char) : Option (List Char × List Char × List Char) :=
  let ind := t.takeWhile isPySpace
  let r1 := t.drop ind.length
  let num := r1.takeWhile (fun c => c.isDigit)
  if num.isEmpty then none
  else
    match r1.drop num.length with
    | '.' :: r2 =>
      let w := r2.takeWhile isPySpace
      if w.isEmpty then none
      else
        let c := r2.drop w.length
        if !(c.contains '\n') then some (ind, num, c)
        else if c.getLast? == some '\n' && !(c.dropLast.contains '\n') then
          some (ind, num, c.dropLast)
        else none
    | _ => none

/-- Anchored match of `^(\s*)([-*+])\s+(.*)$` with Python semantics. -/
def matchUnorderedEnter (t : List Char) : Option (List Char × Char × List Char) :=
  let ind := t.takeWhile isPySpace
  match t.drop ind.length with
  | m :: r2 =>
    if m == '-' || m == '*' || m == '+' then
      let w := r2.takeWhile isPySpace
      if w.isEmpty then none
      else
        let c := r2.drop w.length
        if !(c.contains '\n') then some (ind, m, c)
        else if c.getLast? == some '\n' && !(c.dropLast.contains '\n') then
          some (ind, m, c.dropLast)
        else none
    else none
  | [] => none

/-- `content.strip()` is truthy: the captured content has a character outside
Python's whitespace class. -/
def stripNonempty (c : List Char) : Bool :=
  c.any (fun ch => !isPySpace ch)

/-- The outcome of the Enter-key handler, line-locally: insert the
continuation text at the cursor (keypress consumed), delete the dangling
empty marker from the line start to the cursor (keypress not consumed), or
fall through to default handling. -/
inductive ContinuationAction
  | InsertText (text : List Char)
  | DeleteRange (rangeStart rangeEnd : Nat)
  | NoAction
  deriving DecidableEq, Repr

/-- `MemoEditView._on_key_pressed` on Enter: examine the current line's text
up to the cursor; continue an ordered list with the incremented number, an
unordered list with the same marker, delete an empty dangling marker, or do
nothing. -/
def onEnter (lineText : List Char) (cursor : Nat) : ContinuationAction :=
  let t := lineText.take cursor
  match matchOrderedEnter t with
  | some (ind, num, c) =>
    if stripNonempty c then
      .InsertText ('\n' :: ind ++ (Nat.repr (digitsToNat num + 1)).data ++ ['.', ' '])
    else .DeleteRange 0 cursor
  | none =>
    match matchUnorderedEnter t with
    | some (ind, m, c) =>
      if stripNonempty c then .InsertText ('\n' :: ind ++ [m, ' '])
      else .DeleteRange 0 cursor
    | none => .NoAction

/-- Whether the handler returns `True` (consumes the keypress): only on the
insert path. -/
def enterConsumed : ContinuationAction → Bool
  | .InsertText _ => true
  | _ => false

/-- Concatenation of lines with newline separators (left inverse image of
`splitOnNl`). -/
def joinNl : List (List Char) → List Char
  | [] => []
  | [l] => l
  | l :: l' :: ls => l ++ '\n' :: joinNl (l' :: ls)

/-- Starting document offset of line `i`: the sum of the earlier line lengths
plus one consumed newline per earlier line. -/
def offsetOfLine : List (List Char) → Nat → Nat
  | _, 0 => 0
  | [], _ + 1 => 0
  | l :: ls, i + 1 => l.length + 1 + offsetOfLine ls i

/-- The annotations dictated by a `parse_line_style` result for a line of
length `len` at offset `off`: the correspondence table between the style names
of `MarkdownUtils.parse_line_style` and the tag spans the editor applies. -/
def styleAnnots (st : String × Nat) (off len : Nat) : List Annot :=
  if st.1 = "h1" then [⟨off, off + len, .h1⟩]
  else if st.1 = "h2" then [⟨off, off + len, .h2⟩]
  else if st.1 = "h3" then [⟨off, off + len, .h3⟩]
  else if st.1 = "quote" then [⟨off, off + len, .quote⟩]
  else if st.1 = "code_block" then [⟨off, off + len, .code_block⟩]
  else if st.1 = "list_number" then
    [⟨off, off + st.2, .list_number⟩, ⟨off, off + len, .list_item⟩]
  else if st.1 = "list_bullet" then
    [⟨off, off + st.2, .list_bullet⟩, ⟨off, off + len, .list_item⟩]
  else []

/-- A matcher only returns nonempty match lengths bounded by the input length. -/
def MatcherOK (m : Option Char → List Char → Option Nat) : Prop :=
  ∀ (p : Option Char) (l : List Char) (n : Nat), m p l = some n → 1 ≤ n ∧ n ≤ l.length

/-! ## Bounds of the inline matchers -/

theorem findCloseSingle_le (d : Char) :
    ∀ (l : List Char) (m : Nat), findCloseSingle d l = some m → m + 1 ≤ l.length := by
  intro l
  induction l with
  | nil => intro m h; simp [findCloseSingle] at h
  | cons c rest ih =>
    intro m h
    simp only [findCloseSingle] at h
    split at h
    · cases h; simp
    · split at h
      · cases h
      · rcases Option.map_eq_some'.mp h with ⟨m', hm', rfl⟩
        have := ih m' hm'
        simp only [List.length_cons]
        omega

theorem matchSingle_le (d : Char) (l : List Char) (n : Nat) (h : matchSingle d l = some n) :
    1 ≤ n ∧ n ≤ l.length := by
  match l, h with
  | c0 :: c :: rest, h =>
    simp only [matchSingle] at h
    split at h
    · rcases Option.map_eq_some'.mp h with ⟨m', hm', rfl⟩
      have := findCloseSingle_le d rest m' hm'
      simp only [List.length_cons]
      omega
    · cases h

theorem findCloseDouble_le (d : Char) :
    ∀ (l : List Char) (m : Nat), findCloseDouble d l = some m → m + 2 ≤ l.length := by
  intro l
  induction l with
  | nil => intro m h; simp [findCloseDouble] at h
  | cons c rest ih =>
    intro m h
    match rest, h, ih with
    | [], h, _ => simp [findCloseDouble] at h
    | c2 :: rest', h, ih =>
      simp only [findCloseDouble] at h
      split at h
      · cases h; simp
      · split at h
        · cases h
        · rcases Option.map_eq_some'.mp h with ⟨m', hm', rfl⟩
          have := ih m' hm'
          simp only [List.length_cons] at *
          omega

theorem matchDouble_le (d : Char) (l : List Char) (n : Nat) (h : matchDouble d l = some n) :
    1 ≤ n ∧ n ≤ l.length := by
  match l, h with
  | c0 :: c1 :: c :: rest, h =>
    simp only [matchDouble] at h
    split at h
    · rcases Option.map_eq_some'.mp h with ⟨m', hm', rfl⟩
      have := findCloseDouble_le d rest m' hm'
      simp only [List.length_cons]
      omega
    · cases h

theorem findCloseItalicStar_le :
    ∀ (last : Char) (l : List Char) (m : Nat), findCloseItalicStar last l = some m →
      m + 1 ≤ l.length := by
  intro last l
  induction l generalizing last with
  | nil => intro m h; simp [findCloseItalicStar] at h
  | cons c rest ih =>
    intro m h
    simp only [findCloseItalicStar] at h
    split at h
    · cases h; simp
    · split at h
      · cases h
      · rcases Option.map_eq_some'.mp h with ⟨m', hm', rfl⟩
        have := ih c m' hm'
        simp only [List.length_cons]
        omega

theorem matchItalicStar_le (prev : Option Char) (l : List Char) (n : Nat)
    (h : matchItalicStar prev l = some n) : 1 ≤ n ∧ n ≤ l.length := by
  rw [matchItalicStar.eq_def] at h
  split at h
  · next c rest =>
    split at h
    · cases h
    · split at h
      · cases h
      · rcases Option.map_eq_some'.mp h with ⟨m', hm', rfl⟩
        have := findCloseItalicStar_le c rest m' hm'
        simp only [List.length_cons]
        omega
  · cases h

theorem findCloseParen_le :
    ∀ (l : List Char) (m : Nat), findCloseParen l = some m → m + 1 ≤ l.length := by
  intro l
  induction l with
  | nil => intro m h; simp [findCloseParen] at h
  | cons c rest ih =>
    intro m h
    simp only [findCloseParen] at h
    split at h
    · cases h; simp
    · split at h
      · cases h
      · rcases Option.map_eq_some'.mp h with ⟨m', hm', rfl⟩
        have := ih m' hm'
        simp only [List.length_cons]
        omega

theorem matchGroup2_le (l : List Char) (g : Nat) (h : matchGroup2 l = some g) :
    g ≤ l.length := by
  match l, h with
  | c :: rest, h =>
    simp only [matchGroup2] at h
    split at h
    · cases h
    · rcases Option.map_eq_some'.mp h with ⟨m', hm', rfl⟩
      have := findCloseParen_le rest m' hm'
      simp only [List.length_cons]
      omega

theorem linkAfterFirst_le :
    ∀ (l : List Char) (m : Nat), linkAfterFirst l = some m → m ≤ l.length := by
  intro l
  induction l using linkAfterFirst.induct with
  | case1 r g hg =>
    intro m h
    simp only [linkAfterFirst, hg] at h
    cases h
    have := matchGroup2_le r g hg
    simp only [List.length_cons]
    omega
  | case2 r hg ih =>
    intro m h
    simp only [linkAfterFirst, hg] at h
    rcases Option.map_eq_some'.mp h with ⟨m', hm', rfl⟩
    have := ih m' hm'
    simp only [List.length_cons] at *
    omega
  | case3 c rest hne hnl =>
    intro m h
    simp [linkAfterFirst, hnl] at h
  | case4 c rest hne hnl ih =>
    intro m h
    simp [linkAfterFirst, hnl] at h
    rcases h with ⟨a, ha, rfl⟩
    have := ih a ha
    simp only [List.length_cons]
    omega
  | case5 => intro m h; simp [linkAfterFirst] at h

theorem matchLinkAt_le (l : List Char) (n : Nat) (h : matchLinkAt l = some n) :
    1 ≤ n ∧ n ≤ l.length := by
  rw [matchLinkAt.eq_def] at h
  split at h
  · next c rest =>
    split at h
    · cases h
    · rcases Option.map_eq_some'.mp h with ⟨m', hm', rfl⟩
      have := linkAfterFirst_le rest m' hm'
      simp only [List.length_cons]
      omega
  · cases h

/-! ## Spans produced by `finditer` -/

theorem matcherOK_double (d : Char) : MatcherOK (fun _ s => matchDouble d s) :=
  fun _ l n h => matchDouble_le d l n h

theorem matcherOK_single (d : Char) : MatcherOK (fun _ s => matchSingle d s) :=
  fun _ l n h => matchSingle_le d l n h

theorem matcherOK_italicStar : MatcherOK matchItalicStar :=
  fun p l n h => matchItalicStar_le p l n h

theorem matcherOK_link : MatcherOK (fun _ s => matchLinkAt s) :=
  fun _ l n h => matchLinkAt_le l n h

theorem finditerAux_spans (m : Option Char → List Char → Option Nat) (hm : MatcherOK m) :
    ∀ (fuel : Nat) (prev : Option Char) (l : List Char) (i s e : Nat),
      (s, e) ∈ finditerAux m fuel prev l i → i ≤ s ∧ s < e ∧ e ≤ i + l.length := by
  intro fuel
  induction fuel with
  | zero => intro prev l i s e h; simp [finditerAux] at h
  | succ fuel ih =>
    intro prev l i s e h
    match l with
    | [] => simp [finditerAux] at h
    | c :: rest =>
      simp only [finditerAux] at h
      cases hm' : m prev (c :: rest) with
      | none =>
        rw [hm'] at h
        dsimp only at h
        rcases ih (some c) rest (i + 1) s e h with ⟨h1, h2, h3⟩
        simp only [List.length_cons]
        omega
      | some n =>
        rw [hm'] at h
        dsimp only at h
        rcases hm prev (c :: rest) n hm' with ⟨hn1, hn2⟩
        rw [if_neg (by omega)] at h
        rcases List.mem_cons.mp h with heq | hmem
        · cases heq
          simp only [List.length_cons] at hn2 ⊢
          omega
        · rcases ih _ _ _ s e hmem with ⟨h1, h2, h3⟩
          rw [List.length_drop] at h3
          simp only [List.length_cons] at hn2 h3 ⊢
          omega

theorem finditerAux_matchAt (m : Option Char → List Char → Option Nat) :
    ∀ (fuel : Nat) (prev : Option Char) (l : List Char) (i s e : Nat),
      (s, e) ∈ finditerAux m fuel prev l i →
      i ≤ s ∧ ∃ p, m p (l.drop (s - i)) = some (e - s) := by
  intro fuel
  induction fuel with
  | zero => intro prev l i s e h; simp [finditerAux] at h
  | succ fuel ih =>
    intro prev l i s e h
    match l with
    | [] => simp [finditerAux] at h
    | c :: rest =>
      simp only [finditerAux] at h
      cases hm' : m prev (c :: rest) with
      | none =>
        rw [hm'] at h
        dsimp only at h
        rcases ih (some c) rest (i + 1) s e h with ⟨h1, p, hp⟩
        refine ⟨by omega, p, ?_⟩
        have harith : s - i = (s - (i + 1)) + 1 := by omega
        rw [harith, List.drop_succ_cons]
        exact hp
      | some n =>
        rw [hm'] at h
        dsimp only at h
        by_cases hn0 : n = 0
        · subst hn0
          rw [if_pos rfl] at h
          rcases ih (some c) rest (i + 1) s e h with ⟨h1, p, hp⟩
          refine ⟨by omega, p, ?_⟩
          have harith : s - i = (s - (i + 1)) + 1 := by omega
          rw [harith, List.drop_succ_cons]
          exact hp
        · rw [if_neg hn0] at h
          rcases List.mem_cons.mp h with heq | hmem
          · cases heq
            refine ⟨le_refl _, prev, ?_⟩
            simpa using hm'
          · rcases ih _ _ _ s e hmem with ⟨h1, p, hp⟩
            refine ⟨by omega, p, ?_⟩
            rw [List.drop_drop] at hp
            have harith : n + (s - (i + n)) = s - i := by omega
            rw [harith] at hp
            exact hp

/-! ## Bounds of the line-marker matchers -/

theorem matchOrderedMarker_bounds (l : List Char) (k : Nat)
    (h : matchOrderedMarker l = some k) : 1 ≤ k ∧ k ≤ l.length := by
  simp only [matchOrderedMarker] at h
  split at h
  · cases h
  · split at h
    · next r2 heq =>
      split at h
      · cases h
      · cases h
        have h1 : (l.takeWhile isPySpace).length ≤ l.length :=
          (List.takeWhile_prefix _).length_le
        have h2 : ((l.drop (l.takeWhile isPySpace).length).takeWhile
            (fun c => c.isDigit)).length ≤ (l.drop (l.takeWhile isPySpace).length).length :=
          (List.takeWhile_prefix _).length_le
        have h3 := congrArg List.length heq
        simp only [List.length_drop, List.length_cons] at h2 h3
        have h4 : (r2.takeWhile isPySpace).length ≤ r2.length :=
          (List.takeWhile_prefix _).length_le
        omega
    · cases h

theorem matchUnorderedMarker_bounds (l : List Char) (k : Nat)
    (h : matchUnorderedMarker l = some k) : 1 ≤ k ∧ k ≤ l.length := by
  simp only [matchUnorderedMarker] at h
  split at h
  · next mk r2 heq =>
    split at h
    · split at h
      · cases h
      · cases h
        have h1 : (l.takeWhile isPySpace).length ≤ l.length :=
          (List.takeWhile_prefix _).length_le
        have h3 := congrArg List.length heq
        simp only [List.length_drop, List.length_cons] at h3
        have h4 : (r2.takeWhile isPySpace).length ≤ r2.length :=
          (List.takeWhile_prefix _).length_le
        omega
    · cases h
  · cases h

/-! ## Per-line span facts -/

theorem blockTag_not_inline (t : StyleTag) (h : isBlockTag t = true) :
    isInlineTag t = false := by
  cases t <;> simp_all [isBlockTag, isInlineTag]

theorem full_span_case {off : Nat} {l : List Char} {t : StyleTag} {a : Annot}
    (h : a ∈ [(⟨off, off + l.length, t⟩ : Annot)]) (hb : isBlockTag t = true)
    (hl : 1 ≤ l.length) :
    isBlockTag a.tag = true ∧ off ≤ a.start ∧ a.start < a.stop ∧ a.stop ≤ off + l.length := by
  rcases List.mem_singleton.mp h with rfl
  exact ⟨hb, le_refl _, by show off < off + l.length; omega, le_refl _⟩

theorem prefix_length_le {p l : List Char} (hp : p.isPrefixOf l = true) :
    p.length ≤ l.length :=
  (List.isPrefixOf_iff_prefix.mp hp).length_le

theorem blockAnnots_mem (off : Nat) (l : List Char) (a : Annot) (h : a ∈ blockAnnots off l) :
    isBlockTag a.tag = true ∧ off ≤ a.start ∧ a.start < a.stop ∧ a.stop ≤ off + l.length := by
  simp only [blockAnnots] at h
  split at h
  · next hp =>
    exact full_span_case h rfl (le_trans (by simp) (prefix_length_le hp))
  · split at h
    · next hp =>
      exact full_span_case h rfl (le_trans (by simp) (prefix_length_le hp))
    · split at h
      · next hp =>
        exact full_span_case h rfl (le_trans (by simp) (prefix_length_le hp))
      · split at h
        · next hp =>
          exact full_span_case h rfl (le_trans (by simp) (prefix_length_le hp))
        · split at h
          · next hp =>
            refine full_span_case h rfl ?_
            rw [Bool.or_eq_true] at hp
            rcases hp with hp' | hp' <;>
              exact le_trans (by simp) (prefix_length_le hp')
          · split at h
            · next k hk =>
              rcases matchOrderedMarker_bounds l k hk with ⟨hk1, hk2⟩
              rcases List.mem_cons.mp h with rfl | h
              · exact ⟨rfl, le_refl _, by show off < off + k; omega,
                  by show off + k ≤ off + l.length; omega⟩
              · rcases List.mem_singleton.mp h with rfl
                exact ⟨rfl, le_refl _, by show off < off + l.length; omega, le_refl _⟩
            · split at h
              · next k hk =>
                rcases matchUnorderedMarker_bounds l k hk with ⟨hk1, hk2⟩
                rcases List.mem_cons.mp h with rfl | h
                · exact ⟨rfl, le_refl _, by show off < off + k; omega,
                    by show off + k ≤ off + l.length; omega⟩
                · rcases List.mem_singleton.mp h with rfl
                  exact ⟨rfl, le_refl _, by show off < off + l.length; omega, le_refl _⟩
              · cases h

theorem inline_map_mem {off : Nat} {l : List Char} {m : Option Char → List Char → Option Nat}
    (hm : MatcherOK m) {t : StyleTag} {a : Annot}
    (h : a ∈ (finditer m l).map (fun p => (⟨off + p.1, off + p.2, t⟩ : Annot))) :
    a.tag = t ∧ off ≤ a.start ∧ a.start < a.stop ∧ a.stop ≤ off + l.length := by
  rcases List.mem_map.mp h with ⟨⟨s, e⟩, hmem, rfl⟩
  rcases finditerAux_spans m hm l.length none l 0 s e hmem with ⟨h1, h2, h3⟩
  exact ⟨rfl, by show off ≤ off + s; omega, by show off + s < off + e; omega,
    by show off + e ≤ off + l.length; omega⟩

theorem inlineAnnots_mem (off : Nat) (l : List Char) (a : Annot) (h : a ∈ inlineAnnots off l) :
    isInlineTag a.tag = true ∧ isBlockLine l = false ∧
      off ≤ a.start ∧ a.start < a.stop ∧ a.stop ≤ off + l.length := by
  simp only [inlineAnnots] at h
  split at h
  · simp at h
  · next hbl =>
    have hb : isBlockLine l = false := by simpa using hbl
    simp only [List.mem_append] at h
    rcases h with ((((h | h) | h) | h) | h) | h
    · rcases inline_map_mem (matcherOK_double '*') h with ⟨ht, h1, h2, h3⟩
      exact ⟨by rw [ht]; rfl, hb, h1, h2, h3⟩
    · rcases inline_map_mem matcherOK_italicStar h with ⟨ht, h1, h2, h3⟩
      exact ⟨by rw [ht]; rfl, hb, h1, h2, h3⟩
    · rcases inline_map_mem (matcherOK_single '_') h with ⟨ht, h1, h2, h3⟩
      exact ⟨by rw [ht]; rfl, hb, h1, h2, h3⟩
    · rcases inline_map_mem (matcherOK_single backtick) h with ⟨ht, h1, h2, h3⟩
      exact ⟨by rw [ht]; rfl, hb, h1, h2, h3⟩
    · rcases inline_map_mem (matcherOK_double '~') h with ⟨ht, h1, h2, h3⟩
      exact ⟨by rw [ht]; rfl, hb, h1, h2, h3⟩
    · rcases inline_map_mem matcherOK_link h with ⟨ht, h1, h2, h3⟩
      exact ⟨by rw [ht]; rfl, hb, h1, h2, h3⟩

theorem lineAnnots_mem (off : Nat) (l : List Char) (a : Annot) (h : a ∈ lineAnnots off l) :
    off ≤ a.start ∧ a.start < a.stop ∧ a.stop ≤ off + l.length := by
  rcases List.mem_append.mp h with h | h
  · exact (blockAnnots_mem off l a h).2
  · rcases inlineAnnots_mem off l a h with ⟨_, _, h1, h2, h3⟩
    exact ⟨h1, h2, h3⟩

theorem lineAnnots_inline_not_block (off : Nat) (l : List Char) (a : Annot)
    (h : a ∈ lineAnnots off l) (ht : isInlineTag a.tag = true) : isBlockLine l = false := by
  rcases List.mem_append.mp h with h | h
  · have hb := (blockAnnots_mem off l a h).1
    rw [blockTag_not_inline a.tag hb] at ht
    cases ht
  · exact (inlineAnnots_mem off l a h).2.1

theorem annotateLines_bounds :
    ∀ (ls : List (List Char)) (off : Nat) (a : Annot), a ∈ annotateLines off ls →
      off ≤ a.start ∧ a.start < a.stop := by
  intro ls
  induction ls with
  | nil => intro off a h; simp [annotateLines] at h
  | cons l ls ih =>
    intro off a h
    rcases List.mem_append.mp h with h | h
    · rcases lineAnnots_mem off l a h with ⟨h1, h2, _⟩
      exact ⟨h1, h2⟩
    · rcases ih _ a h with ⟨h1, h2⟩
      exact ⟨by omega, h2⟩

/-! ## Splitting into lines and rejoining -/

theorem splitOnNl_ne_nil : ∀ (cs : List Char), splitOnNl cs ≠ [] := by
  intro cs
  induction cs with
  | nil => simp [splitOnNl]
  | cons c rest ih =>
    simp only [splitOnNl]
    split
    · simp
    · split
      · simp
      · simp

theorem splitOnNl_no_newline : ∀ (cs : List Char), ∀ l ∈ splitOnNl cs, '\n' ∉ l := by
  intro cs
  induction cs with
  | nil =>
    intro l hl
    rcases List.mem_singleton.mp hl with rfl
    simp
  | cons c rest ih =>
    intro l hl
    simp only [splitOnNl] at hl
    split at hl
    · rcases List.mem_cons.mp hl with rfl | hl
      · simp
      · exact ih l hl
    · next hc =>
      split at hl
      · next heq => exact absurd heq (splitOnNl_ne_nil rest)
      · next l0 ls0 heq =>
        have h0 : l0 ∈ splitOnNl rest := by rw [heq]; exact List.mem_cons_self _ _
        rcases List.mem_cons.mp hl with rfl | hl
        · intro hmem
          rcases List.mem_cons.mp hmem with hcc | hmem
          · exact hc hcc.symm
          · exact ih l0 h0 hmem
        · exact ih l (by rw [heq]; exact List.mem_cons_of_mem _ hl)

theorem joinNl_splitOnNl : ∀ (cs : List Char), joinNl (splitOnNl cs) = cs := by
  intro cs
  induction cs with
  | nil => rfl
  | cons c rest ih =>
    simp only [splitOnNl]
    split
    · next hc =>
      subst hc
      rcases hne : splitOnNl rest with _ | ⟨l0, ls0⟩
      · exact absurd hne (splitOnNl_ne_nil rest)
      · rw [hne] at ih
        show joinNl ([] :: l0 :: ls0) = '\n' :: rest
        simp only [joinNl, List.nil_append]
        rw [ih]
    · next hc =>
      rcases hne : splitOnNl rest with _ | ⟨l0, ls0⟩
      · exact absurd hne (splitOnNl_ne_nil rest)
      · rw [hne] at ih
        show joinNl ((c :: l0) :: ls0) = c :: rest
        cases ls0 with
        | nil =>
          simp only [joinNl] at ih ⊢
          rw [ih]
        | cons l1 ls1 =>
          simp only [joinNl, List.cons_append] at ih ⊢
          rw [ih]

theorem annotateLines_stop_le :
    ∀ (ls : List (List Char)) (off : Nat) (a : Annot), a ∈ annotateLines off ls →
      a.stop ≤ off + (joinNl ls).length := by
  intro ls
  induction ls with
  | nil => intro off a h; simp [annotateLines] at h
  | cons l ls ih =>
    intro off a h
    rcases List.mem_append.mp h with h | h
    · have h3 := (lineAnnots_mem off l a h).2.2
      cases ls with
      | nil => simpa [joinNl] using h3
      | cons l1 ls1 =>
        simp only [joinNl, List.length_append, List.length_cons]
        omega
    · cases ls with
      | nil => simp [annotateLines] at h
      | cons l1 ls1 =>
        have := ih (off + l.length + 1) a h
        simp only [joinNl, List.length_append, List.length_cons] at this ⊢
        omega

theorem annotateLines_decomp :
    ∀ (ls : List (List Char)) (off : Nat) (a : Annot), a ∈ annotateLines off ls →
      ∃ (o : Nat) (l : List Char), l ∈ ls ∧ off ≤ o ∧ a ∈ lineAnnots o l ∧
        ((joinNl ls).drop (a.start - off)).take (a.stop - a.start)
          = (l.drop (a.start - o)).take (a.stop - a.start) := by
  intro ls
  induction ls with
  | nil => intro off a h; simp [annotateLines] at h
  | cons l ls ih =>
    intro off a h
    rcases List.mem_append.mp h with h | h
    · refine ⟨off, l, List.mem_cons_self _ _, le_refl _, h, ?_⟩
      rcases lineAnnots_mem off l a h with ⟨h1, h2, h3⟩
      cases ls with
      | nil => simp [joinNl]
      | cons l1 ls1 =>
        show ((l ++ '\n' :: joinNl (l1 :: ls1)).drop (a.start - off)).take (a.stop - a.start) = _
        rw [List.drop_append_of_le_length (by omega)]
        have ht : (a.stop - a.start) ≤ (List.drop (a.start - off) l).length := by
          rw [List.length_drop]; omega
        rw [List.take_append_of_le_length ht]
    · cases ls with
      | nil => simp [annotateLines] at h
      | cons l1 ls1 =>
        rcases ih (off + l.length + 1) a h with ⟨o, l0, hmem, ho, hla, heq⟩
        refine ⟨o, l0, List.mem_cons_of_mem _ hmem, by omega, hla, ?_⟩
        have hge : off + l.length + 1 ≤ a.start :=
          (annotateLines_bounds (l1 :: ls1) (off + l.length + 1) a h).1
        show ((l ++ '\n' :: joinNl (l1 :: ls1)).drop (a.start - off)).take (a.stop - a.start) = _
        have harr : a.start - off = l.length + (a.start - (off + l.length + 1) + 1) := by
          omega
        rw [harr, List.drop_append, List.drop_succ_cons]
        exact heq

/-- Every tag span of `annotate` arises from one line of the split document,
and the document slice it covers is a slice of that line. -/
theorem annotate_decomp (d : String) (a : Annot) (ha : a ∈ annotate d) :
    ∃ (o : Nat) (l : List Char), l ∈ splitOnNl d.data ∧ a ∈ lineAnnots o l ∧
      (d.data.drop a.start).take (a.stop - a.start)
        = (l.drop (a.start - o)).take (a.stop - a.start) := by
  rcases annotateLines_decomp (splitOnNl d.data) 0 a ha with ⟨o, l, hmem, _, hla, heq⟩
  refine ⟨o, l, hmem, hla, ?_⟩
  rw [← joinNl_splitOnNl d.data]
  simpa using heq

/-! ## Block lines exclude inline spans -/

theorem annotateLines_excl :
    ∀ (ls : List (List Char)) (off : Nat) (i : Nat) (h : i < ls.length),
      isBlockLine (ls.get ⟨i, h⟩) = true →
      ∀ a ∈ annotateLines off ls, isInlineTag a.tag = true →
        ¬(off + offsetOfLine ls i ≤ a.start ∧
          a.stop ≤ off + offsetOfLine ls i + (ls.get ⟨i, h⟩).length) := by
  intro ls
  induction ls with
  | nil => intro off i h; simp at h
  | cons l ls ih =>
    intro off i h hbl a ha htag
    rcases List.mem_append.mp ha with ha | ha
    · rcases lineAnnots_mem off l a ha with ⟨h1, h2, h3⟩
      cases i with
      | zero =>
        have hnb := lineAnnots_inline_not_block off l a ha htag
        simp only [List.get] at hbl
        rw [hnb] at hbl
        cases hbl
      | succ j =>
        simp only [offsetOfLine]
        rintro ⟨hc1, hc2⟩
        omega
    · cases i with
      | zero =>
        have hb := annotateLines_bounds ls (off + l.length + 1) a ha
        simp only [offsetOfLine, List.get]
        rintro ⟨hc1, hc2⟩
        omega
      | succ j =>
        have hj : j < ls.length := by simpa using h
        have hbl' : isBlockLine (ls.get ⟨j, hj⟩) = true := by
          simpa [List.get] using hbl
        have := ih (off + l.length + 1) j hj hbl' a ha htag
        simp only [offsetOfLine, List.get]
        rintro ⟨hc1, hc2⟩
        exact this ⟨by omega, by omega⟩

/-! ## Shape of bold matches -/

theorem findCloseDouble_take (d : Char) :
    ∀ (l : List Char) (m : Nat), findCloseDouble d l = some m →
      l.take (m + 2) = l.take m ++ [d, d] := by
  intro l
  induction l with
  | nil => intro m h; simp [findCloseDouble] at h
  | cons c rest ih =>
    intro m h
    match rest, h, ih with
    | [], h, _ => simp [findCloseDouble] at h
    | c2 :: rest', h, ih =>
      simp only [findCloseDouble] at h
      split at h
      · next hdd =>
        cases h
        simp only [Bool.and_eq_true, beq_iff_eq] at hdd
        rcases hdd with ⟨rfl, rfl⟩
        rfl
      · split at h
        · cases h
        · rcases Option.map_eq_some'.mp h with ⟨m', hm', rfl⟩
          have hstep := ih m' hm'
          have e1 : m' + 1 + 2 = (m' + 2) + 1 := by omega
          rw [e1, List.take_succ_cons, hstep, List.take_succ_cons]
          rfl

theorem matchDouble_shape (d : Char) (l : List Char) (n : Nat) (h : matchDouble d l = some n) :
    (l.take n).take 2 = [d, d] ∧ (l.take n).drop (n - 2) = [d, d] := by
  match l, h with
  | c0 :: c1 :: c :: rest, h =>
    simp only [matchDouble] at h
    split at h
    · next hcond =>
      rcases Option.map_eq_some'.mp h with ⟨m, hm, rfl⟩
      simp only [Bool.and_eq_true, beq_iff_eq] at hcond
      rcases hcond with ⟨⟨h1, h2⟩, hnl⟩
      rw [h1, h2]
      have hlen := findCloseDouble_le d rest m hm
      have htake : (d :: d :: c :: rest).take (m + 5)
          = d :: d :: c :: (rest.take m ++ [d, d]) := by
        have e1 : m + 5 = (m + 4) + 1 := by omega
        rw [e1, List.take_succ_cons]
        have e2 : m + 4 = (m + 3) + 1 := by omega
        rw [e2, List.take_succ_cons]
        have e3 : m + 3 = (m + 2) + 1 := by omega
        rw [e3, List.take_succ_cons]
        rw [findCloseDouble_take d rest m hm]
      rw [htake]
      constructor
      · rfl
      · have e4 : m + 5 - 2 = (m + 2) + 1 := by omega
        rw [e4, List.drop_succ_cons]
        have e5 : m + 2 = (m + 1) + 1 := by omega
        rw [e5, List.drop_succ_cons]
        rw [List.drop_succ_cons]
        have hlt : (rest.take m).length = m := by
          rw [List.length_take]
          omega
        nth_rewrite 1 [← hlt]
        rw [List.drop_left]
    · cases h

theorem lineAnnots_bold (off : Nat) (l : List Char) (a : Annot)
    (h : a ∈ lineAnnots off l) (ht : a.tag = .bold) :
    ∃ s e, a.start = off + s ∧ a.stop = off + e ∧
      (s, e) ∈ finditer (fun _ t => matchDouble '*' t) l := by
  rcases List.mem_append.mp h with h | h
  · have hb := (blockAnnots_mem off l a h).1
    rw [ht] at hb
    simp [isBlockTag] at hb
  · simp only [inlineAnnots] at h
    split at h
    · simp at h
    · simp only [List.mem_append] at h
      rcases h with ((((h | h) | h) | h) | h) | h
      · rcases List.mem_map.mp h with ⟨⟨s, e⟩, hmem, rfl⟩
        exact ⟨s, e, rfl, rfl, hmem⟩
      all_goals
        rcases List.mem_map.mp h with ⟨⟨s, e⟩, hmem, rfl⟩
      all_goals simp at ht

/-! ## The block chain agrees with `parse_line_style` -/

theorem inlineTag_not_block (t : StyleTag) (h : isInlineTag t = true) : isBlockTag t = false := by
  cases t <;> simp_all [isBlockTag, isInlineTag]

theorem blockAnnots_filter_self (off : Nat) (l : List Char) :
    (blockAnnots off l).filter (fun a => isBlockTag a.tag) = blockAnnots off l :=
  List.filter_eq_self.mpr (fun a ha => (blockAnnots_mem off l a ha).1)

theorem inlineAnnots_filter_nil (off : Nat) (l : List Char) :
    (inlineAnnots off l).filter (fun a => isBlockTag a.tag) = [] := by
  rw [List.filter_eq_nil_iff]
  intro a ha
  have h1 := (inlineAnnots_mem off l a ha).1
  simp [inlineTag_not_block a.tag h1]

theorem blockAnnots_eq_style (off : Nat) (l : List Char) :
    blockAnnots off l = styleAnnots (parse_line_style l) off l.length := by
  by_cases hp1 : ['#', ' '].isPrefixOf l = true
  · simp [blockAnnots, parse_line_style, styleAnnots, hp1]
  · by_cases hp2 : ['#', '#', ' '].isPrefixOf l = true
    · simp [blockAnnots, parse_line_style, styleAnnots, hp1, hp2]
    · by_cases hp3 : ['#', '#', '#', ' '].isPrefixOf l = true
      · simp [blockAnnots, parse_line_style, styleAnnots, hp1, hp2, hp3]
      · by_cases hp4 : ['>', ' '].isPrefixOf l = true
        · simp [blockAnnots, parse_line_style, styleAnnots, hp1, hp2, hp3, hp4]
        · by_cases hp5 : ([' ', ' ', ' ', ' '].isPrefixOf l || ['\t'].isPrefixOf l) = true
          · simp [blockAnnots, parse_line_style, styleAnnots, hp1, hp2, hp3, hp4, hp5]
          · cases hmo : matchOrderedMarker l with
            | some k =>
              simp [blockAnnots, parse_line_style, styleAnnots, hp1, hp2, hp3, hp4, hp5, hmo]
            | none =>
              cases hmu : matchUnorderedMarker l with
              | some k =>
                simp [blockAnnots, parse_line_style, styleAnnots,
                  hp1, hp2, hp3, hp4, hp5, hmo, hmu]
              | none =>
                simp [blockAnnots, parse_line_style, styleAnnots,
                  hp1, hp2, hp3, hp4, hp5, hmo, hmu]

/-- C10: `should_apply_inline_patterns` returns `False` exactly when
`parse_line_style` classifies the line as one of h1, h2, h3, quote,
code_block; equivalently it returns `True` exactly for lines classified
list_number, list_bullet, or normal — so list lines do receive inline
scanning. -/
theorem inline_exemption_iff_parse_line_style (l : List Char) :
    (should_apply_inline_patterns l = false ↔
      ((parse_line_style l).1 = "h1" ∨ (parse_line_style l).1 = "h2" ∨
       (parse_line_style l).1 = "h3" ∨ (parse_line_style l).1 = "quote" ∨
       (parse_line_style l).1 = "code_block")) ∧
    (should_apply_inline_patterns l = true ↔
      ((parse_line_style l).1 = "list_number" ∨ (parse_line_style l).1 = "list_bullet" ∨
       (parse_line_style l).1 = "normal")) := by
  by_cases hp1 : ['#', ' '].isPrefixOf l = true
  · simp [should_apply_inline_patterns, parse_line_style, hp1]
  · by_cases hp2 : ['#', '#', ' '].isPrefixOf l = true
    · simp [should_apply_inline_patterns, parse_line_style, hp1, hp2]
    · by_cases hp3 : ['#', '#', '#', ' '].isPrefixOf l = true
      · simp [should_apply_inline_patterns, parse_line_style, hp1, hp2, hp3]
      · by_cases hp4 : ['>', ' '].isPrefixOf l = true
        · simp [should_apply_inline_patterns, parse_line_style, hp1, hp2, hp3, hp4]
        · by_cases hp5a : [' ', ' ', ' ', ' '].isPrefixOf l = true
          · simp [should_apply_inline_patterns, parse_line_style, hp1, hp2, hp3, hp4, hp5a]
          · by_cases hp5b : ['\t'].isPrefixOf l = true
            · simp [should_apply_inline_patterns, parse_line_style,
                hp1, hp2, hp3, hp4, hp5a, hp5b]
            · cases hmo : matchOrderedMarker l with
              | some k =>
                simp [should_apply_inline_patterns, parse_line_style,
                  hp1, hp2, hp3, hp4, hp5a, hp5b, hmo]
              | none =>
                cases hmu : matchUnorderedMarker l with
                | some k =>
                  simp [should_apply_inline_patterns, parse_line_style,
                    hp1, hp2, hp3, hp4, hp5a, hp5b, hmo, hmu]
                | none =>
                  simp [should_apply_inline_patterns, parse_line_style,
                    hp1, hp2, hp3, hp4, hp5a, hp5b, hmo, hmu]

/-! ## Computing the Enter-key matches on decomposed lines -/

theorem isDigit_not_isPySpace (c : Char) (h : c.isDigit = true) : isPySpace c = false := by
  simp only [Char.isDigit, Bool.and_eq_true, decide_eq_true_eq] at h
  obtain ⟨h1, h2⟩ := h
  have hn1 : 48 ≤ c.toNat := h1
  have hn2 : c.toNat ≤ 57 := h2
  rw [Bool.eq_false_iff]
  intro htrue
  simp only [isPySpace, Bool.or_eq_true, beq_iff_eq, Bool.and_eq_true, decide_eq_true_eq]
    at htrue
  rcases htrue with
    ((((((((((((((((((h | h) | h) | h) | h) | h) | h) | h) | h) | h) | h) | h) | h) |
      ⟨ha, hb⟩) | h) | h) | h) | h) | h)
  all_goals first
    | (subst h; revert hn1 hn2; decide)
    | (have h8 : (8192 : Nat) ≤ c.toNat := ha; omega)

theorem takeWhile_append_all {p : Char → Bool} (xs ys : List Char)
    (h : ∀ c ∈ xs, p c = true) :
    (xs ++ ys).takeWhile p = xs ++ ys.takeWhile p := by
  rw [List.takeWhile_append, List.takeWhile_eq_self_iff.mpr h, if_pos rfl]

theorem takeWhile_cons_false {p : Char → Bool} {c : Char} (cs : List Char) (h : p c = false) :
    (c :: cs).takeWhile p = [] := by
  simp [List.takeWhile_cons, h]

theorem matchOrderedEnter_append (ind num w content : List Char)
    (hind : ∀ c ∈ ind, isPySpace c = true)
    (hnum : num ≠ []) (hdig : ∀ c ∈ num, c.isDigit = true)
    (hw : w ≠ []) (hws : ∀ c ∈ w, isPySpace c = true)
    (hnc : '\n' ∉ content) :
    matchOrderedEnter (ind ++ (num ++ '.' :: (w ++ content)))
      = some (ind, num, content.drop (content.takeWhile isPySpace).length) := by
  obtain ⟨n0, num', rfl⟩ : ∃ n0 num', num = n0 :: num' := by
    cases num with
    | nil => exact absurd rfl hnum
    | cons a b => exact ⟨a, b, rfl⟩
  obtain ⟨w0, w', rfl⟩ : ∃ w0 w', w = w0 :: w' := by
    cases w with
    | nil => exact absurd rfl hw
    | cons a b => exact ⟨a, b, rfl⟩
  have hstep1 : (ind ++ ((n0 :: num') ++ '.' :: ((w0 :: w') ++ content))).takeWhile isPySpace
      = ind := by
    rw [takeWhile_append_all _ _ hind, List.cons_append, takeWhile_cons_false _
      (isDigit_not_isPySpace n0 (hdig n0 (List.mem_cons_self _ _))), List.append_nil]
  have hstep3 : ((n0 :: num') ++ '.' :: ((w0 :: w') ++ content)).takeWhile
      (fun c => c.isDigit) = n0 :: num' := by
    rw [takeWhile_append_all _ _ hdig, takeWhile_cons_false _ (by decide), List.append_nil]
  have hstep4 : ((w0 :: w') ++ content).takeWhile isPySpace
      = (w0 :: w') ++ content.takeWhile isPySpace :=
    takeWhile_append_all _ _ hws
  have hstep5 : ((w0 :: w') ++ content).drop
      ((w0 :: w') ++ content.takeWhile isPySpace).length
      = content.drop (content.takeWhile isPySpace).length := by
    rw [List.length_append, List.drop_append]
  have hstep6 : ((content.drop (content.takeWhile isPySpace).length).contains '\n') = false := by
    simpa using fun hmem => hnc (List.mem_of_mem_drop hmem)
  simp only [matchOrderedEnter]
  rw [hstep1, List.drop_left, hstep3]
  simp only [List.isEmpty_cons, Bool.false_eq_true, if_false]
  rw [List.drop_left]
  simp only []
  rw [hstep4, hstep5, hstep6]
  simp

theorem matchOrderedEnter_marker_none (ind : List Char) (mk : Char) (rest : List Char)
    (hind : ∀ c ∈ ind, isPySpace c = true)
    (hmk : mk = '-' ∨ mk = '*' ∨ mk = '+') :
    matchOrderedEnter (ind ++ mk :: rest) = none := by
  have hmks : isPySpace mk = false := by rcases hmk with rfl | rfl | rfl <;> decide
  have hmkd : mk.isDigit = false := by rcases hmk with rfl | rfl | rfl <;> decide
  have hstep1 : (ind ++ mk :: rest).takeWhile isPySpace = ind := by
    rw [takeWhile_append_all _ _ hind, takeWhile_cons_false _ hmks, List.append_nil]
  have hstep2 : (mk :: rest).takeWhile (fun c => c.isDigit) = [] :=
    takeWhile_cons_false _ hmkd
  simp only [matchOrderedEnter]
  rw [hstep1, List.drop_left, hstep2]
  simp

theorem matchUnorderedEnter_append (ind : List Char) (mk : Char) (w content : List Char)
    (hind : ∀ c ∈ ind, isPySpace c = true)
    (hmk : mk = '-' ∨ mk = '*' ∨ mk = '+')
    (hw : w ≠ []) (hws : ∀ c ∈ w, isPySpace c = true)
    (hnc : '\n' ∉ content) :
    matchUnorderedEnter (ind ++ mk :: (w ++ content))
      = some (ind, mk, content.drop (content.takeWhile isPySpace).length) := by
  obtain ⟨w0, w', rfl⟩ : ∃ w0 w', w = w0 :: w' := by
    cases w with
    | nil => exact absurd rfl hw
    | cons a b => exact ⟨a, b, rfl⟩
  have hmks : isPySpace mk = false := by rcases hmk with rfl | rfl | rfl <;> decide
  have hmkb : (mk == '-' || mk == '*' || mk == '+') = true := by
    rcases hmk with rfl | rfl | rfl <;> decide
  have hstep1 : (ind ++ mk :: ((w0 :: w') ++ content)).takeWhile isPySpace = ind := by
    rw [takeWhile_append_all _ _ hind, takeWhile_cons_false _ hmks, List.append_nil]
  have hstep4 : ((w0 :: w') ++ content).takeWhile isPySpace
      = (w0 :: w') ++ content.takeWhile isPySpace :=
    takeWhile_append_all _ _ hws
  have hstep5 : ((w0 :: w') ++ content).drop
      ((w0 :: w') ++ content.takeWhile isPySpace).length
      = content.drop (content.takeWhile isPySpace).length := by
    rw [List.length_append, List.drop_append]
  have hstep6 : ((content.drop (content.takeWhile isPySpace).length).contains '\n') = false := by
    simpa using fun hmem => hnc (List.mem_of_mem_drop hmem)
  simp only [matchUnorderedEnter]
  rw [hstep1, List.drop_left]
  simp only []
  rw [hmkb]
  simp only [if_true]
  rw [hstep4, hstep5, hstep6]
  simp

theorem drop_takeWhile_length (p : Char → Bool) :
    ∀ (l : List Char), l.drop (l.takeWhile p).length = l.dropWhile p := by
  intro l
  induction l with
  | nil => rfl
  | cons c cs ih =>
    by_cases h : p c
    · simp [List.takeWhile_cons, List.dropWhile_cons, h, ih]
    · simp only [Bool.not_eq_true] at h
      simp [List.takeWhile_cons, List.dropWhile_cons, h]

theorem stripNonempty_drop {content : List Char}
    (hcont : ∃ c ∈ content, isPySpace c = false) :
    stripNonempty (content.drop (content.takeWhile isPySpace).length) = true := by
  rcases hcont with ⟨x, hx, hxp⟩
  have hxd : x ∈ content.drop (content.takeWhile isPySpace).length := by
    rw [drop_takeWhile_length]
    have hsplit := List.takeWhile_append_dropWhile isPySpace content
    rcases List.mem_append.mp (by rw [hsplit]; exact hx) with hx1 | hx2
    · exact absurd (List.mem_takeWhile_imp hx1) (by simp [hxp])
    · exact hx2
  exact List.any_eq_true.mpr ⟨x, hxd, by simp [hxp]⟩

theorem stripNonempty_drop_allspace {content : List Char}
    (hall : ∀ c ∈ content, isPySpace c = true) :
    stripNonempty (content.drop (content.takeWhile isPySpace).length) = false := by
  rw [drop_takeWhile_length, List.dropWhile_eq_nil_iff.mpr hall]
  rfl

theorem styleAnnots_heading_span (st : String × Nat) (off len : Nat) (a : Annot)
    (ha : a ∈ styleAnnots st off len)
    (htag : a.tag = .h1 ∨ a.tag = .h2 ∨ a.tag = .h3 ∨ a.tag = .quote ∨
      a.tag = .code_block) :
    a.start = off ∧ a.stop = off + len := by
  simp only [styleAnnots] at ha
  split at ha
  · rcases List.mem_singleton.mp ha with rfl; exact ⟨rfl, rfl⟩
  · split at ha
    · rcases List.mem_singleton.mp ha with rfl; exact ⟨rfl, rfl⟩
    · split at ha
      · rcases List.mem_singleton.mp ha with rfl; exact ⟨rfl, rfl⟩
      · split at ha
        · rcases List.mem_singleton.mp ha with rfl; exact ⟨rfl, rfl⟩
        · split at ha
          · rcases List.mem_singleton.mp ha with rfl; exact ⟨rfl, rfl⟩
          · split at ha
            · rcases List.mem_cons.mp ha with rfl | ha
              · simp at htag
              · rcases List.mem_singleton.mp ha with rfl
                simp at htag
            · split at ha
              · rcases List.mem_cons.mp ha with rfl | ha
                · simp at htag
                · rcases List.mem_singleton.mp ha with rfl
                  simp at htag
              · cases ha

/-! ## The claims -/

/-- C1: a line that matches one of the six block prefixes receives no
inline-category annotation whose span lies within that line's offset range;
in particular `annotate "# **bold**"` is exactly one Heading1 annotation over
the whole line and no Bold annotation. -/
theorem annotate_block_line_inline_exclusion :
    (∀ (d : String) (i : Nat) (h : i < (splitOnNl d.data).length),
      isBlockLine ((splitOnNl d.data).get ⟨i, h⟩) = true →
      ∀ a ∈ annotate d, isInlineTag a.tag = true →
        ¬(offsetOfLine (splitOnNl d.data) i ≤ a.start ∧
          a.stop ≤ offsetOfLine (splitOnNl d.data) i +
            ((splitOnNl d.data).get ⟨i, h⟩).length)) ∧
    annotate "# **bold**" = [⟨0, 10, .h1⟩] := by
  constructor
  · intro d i h hbl a ha htag
    have := annotateLines_excl (splitOnNl d.data) 0 i h hbl a ha htag
    simpa using this
  · decide

theorem annotate_block_line_inline_exclusion_witness :
    ¬((0 : Nat) ≤ 4 ∧ (9 : Nat) ≤ 0 + 3) := by
  have h := annotate_block_line_inline_exclusion.1 "# x\n**b**" 0 (by decide) (by decide)
    ⟨4, 9, .bold⟩ (by decide) (by decide)
  exact h

/-- C2: block-level classification is the first matching rule of the ordered
chain, with at most one block classification per line: the block-category
annotations of a line are exactly those dictated by
`MarkdownUtils.parse_line_style`, and every heading, quote or code-block
annotation covers the full line span. -/
theorem lineAnnots_block_classification :
    (∀ (off : Nat) (l : List Char),
      (lineAnnots off l).filter (fun a => isBlockTag a.tag)
        = styleAnnots (parse_line_style l) off l.length) ∧
    (∀ (off : Nat) (l : List Char), ∀ a ∈ lineAnnots off l,
      (a.tag = .h1 ∨ a.tag = .h2 ∨ a.tag = .h3 ∨ a.tag = .quote ∨
        a.tag = .code_block) →
      a.start = off ∧ a.stop = off + l.length) := by
  have hmain : ∀ (off : Nat) (l : List Char),
      (lineAnnots off l).filter (fun a => isBlockTag a.tag)
        = styleAnnots (parse_line_style l) off l.length := by
    intro off l
    show (blockAnnots off l ++ inlineAnnots off l).filter (fun a => isBlockTag a.tag) = _
    rw [List.filter_append, blockAnnots_filter_self, inlineAnnots_filter_nil,
      List.append_nil, blockAnnots_eq_style]
  refine ⟨hmain, ?_⟩
  intro off l a ha htag
  have hbt : isBlockTag a.tag = true := by
    rcases htag with h | h | h | h | h <;> rw [h] <;> rfl
  have hf : a ∈ (lineAnnots off l).filter (fun a => isBlockTag a.tag) :=
    List.mem_filter.mpr ⟨ha, hbt⟩
  rw [hmain off l] at hf
  exact styleAnnots_heading_span _ off l.length a hf htag

theorem lineAnnots_block_classification_witness :
    (0 : Nat) = 0 ∧ (3 : Nat) = 0 + 3 :=
  lineAnnots_block_classification.2 0 ("# x" : String).data ⟨0, 3, .h1⟩ (by decide)
    (Or.inl rfl)

/-- C3: every annotation has `0 ≤ start < end ≤ length d` in code-point
offsets, and the covered document slice is consistent with the construct: a
Bold span starts and ends with `**`. -/
theorem annotate_offsets_valid :
    ∀ (d : String), ∀ a ∈ annotate d,
      0 ≤ a.start ∧ a.start < a.stop ∧ a.stop ≤ d.length ∧
      (a.tag = .bold →
        ((d.data.drop a.start).take (a.stop - a.start)).take 2 = ['*', '*'] ∧
        ((d.data.drop a.start).take (a.stop - a.start)).drop (a.stop - a.start - 2)
          = ['*', '*']) := by
  intro d a ha
  have hb := annotateLines_bounds (splitOnNl d.data) 0 a ha
  have hs := annotateLines_stop_le (splitOnNl d.data) 0 a ha
  rw [joinNl_splitOnNl] at hs
  refine ⟨Nat.zero_le _, hb.2, ?_, ?_⟩
  · have hld : d.length = d.data.length := rfl
    omega
  · intro ht
    rcases annotate_decomp d a ha with ⟨o, l, hmeml, hla, heq⟩
    rcases lineAnnots_bold o l a hla ht with ⟨s, e, hstart, hstop, hfind⟩
    rcases finditerAux_matchAt (fun _ t => matchDouble '*' t) l.length none l 0 s e hfind
      with ⟨hs0, p, hmatch⟩
    simp only [Nat.sub_zero] at hmatch
    rcases matchDouble_shape '*' (l.drop s) (e - s) hmatch with ⟨hsh1, hsh2⟩
    have e1 : a.start - o = s := by omega
    have e2 : a.stop - a.start = e - s := by omega
    rw [heq, e1, e2]
    exact ⟨hsh1, hsh2⟩

theorem annotate_offsets_valid_witness :
    (0 : Nat) ≤ 0 ∧ (0 : Nat) < 5 ∧ 5 ≤ ("**x**" : String).length ∧
    ((Annot.mk 0 5 .bold).tag = .bold →
      ((("**x**" : String).data.drop 0).take 5).take 2 = ['*', '*'] ∧
      ((("**x**" : String).data.drop 0).take 5).drop 3 = ['*', '*']) :=
  annotate_offsets_valid "**x**" ⟨0, 5, .bold⟩ (by decide)

/-- C4: `annotate "**hi** and *there*"` is exactly a Bold span over [0,6) and
an Italic span over [11,18); non-greedy matching makes
`annotate "**a** and **b**"` produce two separate Bold spans. -/
theorem annotate_inline_examples :
    annotate "**hi** and *there*" = [⟨0, 6, .bold⟩, ⟨11, 18, .italic⟩] ∧
    annotate "**a** and **b**" = [⟨0, 5, .bold⟩, ⟨10, 15, .bold⟩] := by
  constructor <;> decide

/-- C5: `annotate "- item one\n- item two"` is exactly four annotations, the
bullet marker and full-line list-item span of each line, with the second
line's offsets advanced by line length plus one for the newline. -/
theorem annotate_list_lines_example :
    annotate "- item one\n- item two" =
      [⟨0, 2, .list_bullet⟩, ⟨0, 10, .list_item⟩,
       ⟨11, 13, .list_bullet⟩, ⟨11, 21, .list_item⟩] := by
  decide

/-- C6: on Enter, a line marker with non-empty trailing content continues the
list: an ordered marker inserts a newline, the indent and the incremented
number; an unordered marker inserts a newline, the indent and the same
marker; both consume the keypress. -/
theorem onEnter_continuation_insert :
    (∀ (s : List Char) (cursor : Nat) (ind num w content : List Char),
      s = ind ++ (num ++ '.' :: (w ++ content)) → cursor = s.length →
      (∀ c ∈ ind, isPySpace c = true) → num ≠ [] → (∀ c ∈ num, c.isDigit = true) →
      w ≠ [] → (∀ c ∈ w, isPySpace c = true) →
      '\n' ∉ content → (∃ c ∈ content, isPySpace c = false) →
      onEnter s cursor
          = .InsertText ('\n' :: ind ++ (Nat.repr (digitsToNat num + 1)).data ++ ['.', ' ']) ∧
        enterConsumed (onEnter s cursor) = true) ∧
    (∀ (s : List Char) (cursor : Nat) (ind : List Char) (mk : Char) (w content : List Char),
      s = ind ++ mk :: (w ++ content) → cursor = s.length →
      (∀ c ∈ ind, isPySpace c = true) → (mk = '-' ∨ mk = '*' ∨ mk = '+') →
      w ≠ [] → (∀ c ∈ w, isPySpace c = true) →
      '\n' ∉ content → (∃ c ∈ content, isPySpace c = false) →
      onEnter s cursor = .InsertText ('\n' :: ind ++ [mk, ' ']) ∧
        enterConsumed (onEnter s cursor) = true) := by
  constructor
  · intro s cursor ind num w content hs hc hind hnum hdig hw hws hnc hcont
    subst hs
    subst hc
    have hmo := matchOrderedEnter_append ind num w content hind hnum hdig hw hws hnc
    have hstrip := stripNonempty_drop hcont
    dsimp only [onEnter]
    rw [List.take_length, hmo]
    simp [hstrip, enterConsumed]
  · intro s cursor ind mk w content hs hc hind hmk hw hws hnc hcont
    subst hs
    subst hc
    have hnone := matchOrderedEnter_marker_none ind mk (w ++ content) hind hmk
    have hmu := matchUnorderedEnter_append ind mk w content hind hmk hw hws hnc
    have hstrip := stripNonempty_drop hcont
    dsimp only [onEnter]
    rw [List.take_length, hnone, hmu]
    simp [hstrip, enterConsumed]

theorem onEnter_continuation_insert_witness :
    onEnter ("3. buy milk" : String).data 11 = .InsertText ("\n4. " : String).data ∧
    onEnter ("- a" : String).data 3 = .InsertText ("\n- " : String).data := by
  constructor
  · have h := (onEnter_continuation_insert.1 ("3. buy milk" : String).data 11
      [] ['3'] [' '] ("buy milk" : String).data (by decide) (by decide) (by decide)
      (by decide) (by decide) (by decide) (by decide) (by decide) (by decide)).1
    rw [h]
    decide
  · have h := (onEnter_continuation_insert.2 ("- a" : String).data 3
      [] '-' [' '] ['a'] (by decide) (by decide) (by decide) (by decide) (by decide)
      (by decide) (by decide) (by decide)).1
    rw [h]
    decide

/-- C7: on Enter, a line marker with empty or whitespace-only trailing
content deletes the dangling marker from the line start to the cursor and
does not consume the keypress. -/
theorem onEnter_empty_marker_delete :
    (∀ (s : List Char) (cursor : Nat) (ind num w content : List Char),
      s = ind ++ (num ++ '.' :: (w ++ content)) → cursor = s.length →
      (∀ c ∈ ind, isPySpace c = true) → num ≠ [] → (∀ c ∈ num, c.isDigit = true) →
      w ≠ [] → (∀ c ∈ w, isPySpace c = true) →
      '\n' ∉ content → (∀ c ∈ content, isPySpace c = true) →
      onEnter s cursor = .DeleteRange 0 cursor ∧
        enterConsumed (onEnter s cursor) = false) ∧
    (∀ (s : List Char) (cursor : Nat) (ind : List Char) (mk : Char) (w content : List Char),
      s = ind ++ mk :: (w ++ content) → cursor = s.length →
      (∀ c ∈ ind, isPySpace c = true) → (mk = '-' ∨ mk = '*' ∨ mk = '+') →
      w ≠ [] → (∀ c ∈ w, isPySpace c = true) →
      '\n' ∉ content → (∀ c ∈ content, isPySpace c = true) →
      onEnter s cursor = .DeleteRange 0 cursor ∧
        enterConsumed (onEnter s cursor) = false) := by
  constructor
  · intro s cursor ind num w content hs hc hind hnum hdig hw hws hnc hall
    subst hs
    subst hc
    have hmo := matchOrderedEnter_append ind num w content hind hnum hdig hw hws hnc
    have hstrip := stripNonempty_drop_allspace hall
    dsimp only [onEnter]
    rw [List.take_length, hmo]
    simp [hstrip, enterConsumed]
  · intro s cursor ind mk w content hs hc hind hmk hw hws hnc hall
    subst hs
    subst hc
    have hnone := matchOrderedEnter_marker_none ind mk (w ++ content) hind hmk
    have hmu := matchUnorderedEnter_append ind mk w content hind hmk hw hws hnc
    have hstrip := stripNonempty_drop_allspace hall
    dsimp only [onEnter]
    rw [List.take_length, hnone, hmu]
    simp [hstrip, enterConsumed]

theorem onEnter_empty_marker_delete_witness :
    onEnter ("3. " : String).data 3 = .DeleteRange 0 3 ∧
    enterConsumed (onEnter ("3. " : String).data 3) = false ∧
    onEnter ("- " : String).data 2 = .DeleteRange 0 2 := by
  refine ⟨?_, ?_, ?_⟩
  · exact (onEnter_empty_marker_delete.1 ("3. " : String).data 3 [] ['3'] [' '] []
      (by decide) (by decide) (by decide) (by decide) (by decide) (by decide) (by decide)
      (by decide) (by decide)).1
  · exact (onEnter_empty_marker_delete.1 ("3. " : String).data 3 [] ['3'] [' '] []
      (by decide) (by decide) (by decide) (by decide) (by decide) (by decide) (by decide)
      (by decide) (by decide)).2
  · exact (onEnter_empty_marker_delete.2 ("- " : String).data 2 [] '-' [' '] []
      (by decide) (by decide) (by decide) (by decide) (by decide) (by decide) (by decide)
      (by decide)).1

/-- C8: the annotator is a total, deterministic function of the document
content: equal documents get equal annotation lists, and the empty and
newline-only documents get the empty list. -/
theorem annotate_total_deterministic :
    (∀ (d₁ d₂ : String), d₁ = d₂ → annotate d₁ = annotate d₂) ∧
    annotate "" = [] ∧ annotate "\n\n" = [] := by
  refine ⟨fun d₁ d₂ h => by rw [h], by decide, by decide⟩

theorem annotate_total_deterministic_witness :
    annotate "**oops" = annotate "**oops" :=
  annotate_total_deterministic.1 "**oops" "**oops" rfl

/-- C9: every annotation lies entirely within a single line: the document
slice it covers contains no newline character. -/
theorem annotate_spans_single_line :
    ∀ (d : String), ∀ a ∈ annotate d,
      '\n' ∉ (d.data.drop a.start).take (a.stop - a.start) := by
  intro d a ha
  rcases annotate_decomp d a ha with ⟨o, l, hmeml, hla, heq⟩
  rw [heq]
  intro hmem
  exact splitOnNl_no_newline d.data l hmeml
    (List.mem_of_mem_drop (List.mem_of_mem_take hmem))

theorem annotate_spans_single_line_witness :
    '\n' ∉ ((("a\n**b**" : String).data.drop 2).take 5) :=
  annotate_spans_single_line "a\n**b**" ⟨2, 7, .bold⟩ (by decide)

end Memories
